import Mathlib

/-!
Verification of the recursive task-tree engine of the Proyectate
project-tracking application.

The definitions below are a shallow embedding of the TypeScript source:
the entity types from `types.ts`, the pure tree primitives
(`getTaskProgress`, `searchTasks`, `findTaskAndUpdate`,
`findTaskAndAddSubtask`, `findTaskAndDelete`) and the project-store
operations (`modifyActiveProject`, `addTask`, `moveTask`,
`toggleTaskStatus`, ...) from the application file.  JavaScript numbers
on the progress path are integer-valued, so they are modelled as `Nat`
(`Math.round(a / b)` for naturals becomes `(2*a + b) / (2*b)` in natural
division, i.e. floor of `a/b + 1/2`).  Nondeterministic inputs
(`generateId()`, `Date.now()`) are passed as explicit parameters.
-/

namespace Proyectate

/-- The `TaskStatus` enum from `types.ts`. -/
inductive TaskStatus where
  | PENDING
  | COMPLETED
deriving DecidableEq, Repr

/-- The attachment `type` union from `types.ts` (plus the `link` value the
application passes at run time). -/
inductive AttachmentType where
  | image
  | document
  | audio
  | video
  | link
deriving DecidableEq, Repr

/-- The `Attachment` interface from `types.ts`. -/
structure Attachment where
  id : String
  name : String
  type : AttachmentType
  url : String
  createdAt : Nat
  createdBy : String
deriving DecidableEq, Repr

/-- The `ActivityLog.type` union from `types.ts`. -/
inductive LogType where
  | comment
  | status_change
  | creation
  | attachment
deriving DecidableEq, Repr

/-- The `ActivityLog` interface from `types.ts`. -/
structure ActivityLog where
  id : String
  content : String
  type : LogType
  timestamp : Nat
  createdBy : String
deriving DecidableEq, Repr

/-- The non-recursive fields of the `Task` interface from `types.ts`. -/
structure TaskData where
  id : String
  title : String
  description : Option String
  status : TaskStatus
  attachments : List Attachment
  activity : List ActivityLog
  tags : List String
  expanded : Bool
  createdBy : String
deriving DecidableEq, Repr

/-- The `Task` interface from `types.ts`: the non-recursive fields together with the
recursive `subtasks` forest. -/
inductive Task where
  | node (data : TaskData) (subtasks : List Task)

mutual
/-- Decidable equality for tasks. -/
def Task.deq : (a b : Task) → Decidable (a = b)
  | .node d₁ s₁, .node d₂ s₂ =>
    match decEq d₁ d₂ with
    | isTrue h₁ =>
      match Task.deqL s₁ s₂ with
      | isTrue h₂ => isTrue (by rw [h₁, h₂])
      | isFalse h₂ => isFalse (by intro h; injection h; exact h₂ ‹_›)
    | isFalse h₁ => isFalse (by intro h; injection h; exact h₁ ‹_›)

/-- Decidable equality for task forests. -/
def Task.deqL : (a b : List Task) → Decidable (a = b)
  | [], [] => isTrue rfl
  | [], _ :: _ => isFalse (by simp)
  | _ :: _, [] => isFalse (by simp)
  | a :: as, b :: bs =>
    match Task.deq a b with
    | isTrue h₁ =>
      match Task.deqL as bs with
      | isTrue h₂ => isTrue (by rw [h₁, h₂])
      | isFalse h₂ => isFalse (by intro h; injection h; exact h₂ ‹_›)
    | isFalse h₁ => isFalse (by intro h; injection h; exact h₁ ‹_›)
end

instance : DecidableEq Task := Task.deq

/-- The non-recursive fields of a task. -/
def Task.data : Task → TaskData
  | .node d _ => d

/-- The `subtasks` field of a task. -/
def Task.subtasks : Task → List Task
  | .node _ c => c

@[simp] theorem Task.data_node (d : TaskData) (c : List Task) :
    (Task.node d c).data = d := rfl

@[simp] theorem Task.subtasks_node (d : TaskData) (c : List Task) :
    (Task.node d c).subtasks = c := rfl

/-- The `id` field of a task. -/
def Task.id (t : Task) : String := t.data.id

/-- The `title` field of a task. -/
def Task.title (t : Task) : String := t.data.title

/-- The `description` field of a task. -/
def Task.description (t : Task) : Option String := t.data.description

/-- The `status` field of a task. -/
def Task.status (t : Task) : TaskStatus := t.data.status

/-- The `activity` field of a task. -/
def Task.activity (t : Task) : List ActivityLog := t.data.activity

/-- The `attachments` field of a task. -/
def Task.attachments (t : Task) : List Attachment := t.data.attachments

/-- The `expanded` field of a task. -/
def Task.expanded (t : Task) : Bool := t.data.expanded

/-- The `createdBy` field of a task. -/
def Task.createdBy (t : Task) : String := t.data.createdBy

@[simp] theorem Task.id_node (d : TaskData) (c : List Task) :
    (Task.node d c).id = d.id := rfl

@[simp] theorem Task.status_node (d : TaskData) (c : List Task) :
    (Task.node d c).status = d.status := rfl

@[simp] theorem Task.expanded_node (d : TaskData) (c : List Task) :
    (Task.node d c).expanded = d.expanded := rfl

@[simp] theorem Task.activity_node (d : TaskData) (c : List Task) :
    (Task.node d c).activity = d.activity := rfl

/-- The `Project` interface from `types.ts`. -/
structure Project where
  id : String
  title : String
  subtitle : String
  createdAt : Nat
  createdBy : String
  tasks : List Task
  themeColor : Option String

/-- The `AppState` interface from `types.ts`. -/
structure AppState where
  projects : List Project

mutual
/-- All nodes of a forest, parent before children (preorder). -/
def allTasks : List Task → List Task
  | [] => []
  | t :: ts => allOf t ++ allTasks ts

/-- A node together with all nodes of its subtask forest. -/
def allOf : Task → List Task
  | .node d subs => .node d subs :: allTasks subs
end

/-- The ids of all nodes of a forest, at every depth. -/
def idsOf (ts : List Task) : List String := (allTasks ts).map Task.id

mutual
/-- Function `getTaskProgress` from the application file: a leaf is 100 when
COMPLETED and 0 otherwise; an inner node is
`Math.round(totalProgress / subtasks.length)`, modelled in natural
division as `(2 * total + n) / (2 * n)` (floor of `total/n + 1/2`). -/
def getTaskProgress : Task → Nat
  | .node d [] => if d.status = .COMPLETED then 100 else 0
  | .node _ (s :: ss) =>
    (2 * sumProgress (s :: ss) + (s :: ss).length) / (2 * (s :: ss).length)

/-- The `reduce((acc, sub) => acc + getTaskProgress(sub), 0)` sum inside
`getTaskProgress`. -/
def sumProgress : List Task → Nat
  | [] => 0
  | t :: ts => getTaskProgress t + sumProgress ts
end

/-- Function `getProjectProgress` from the application file. -/
def getProjectProgress (p : Project) : Nat :=
  match p.tasks with
  | [] => 0
  | t :: ts => (2 * sumProgress (t :: ts) + (t :: ts).length) / (2 * (t :: ts).length)

/-- Holds when `p` is a prefix of `s` (character lists). -/
def strHasPre : List Char → List Char → Bool
  | [], _ => true
  | _ :: _, [] => false
  | a :: p, b :: s => a == b && strHasPre p s

/-- Holds when `q` occurs as a contiguous substring of `s` (character lists);
JavaScript `String.prototype.includes`. -/
def strIncl : List Char → List Char → Bool
  | [], q => q.isEmpty
  | a :: s, q => strHasPre q (a :: s) || strIncl s q

/-- JavaScript `s.toLowerCase().includes(q.toLowerCase())`
(`toLowerCase` is per-character lowering, modelled on the character
list of the string). -/
def jsIncludes (s q : String) : Bool :=
  strIncl (s.data.map Char.toLower) (q.data.map Char.toLower)

/-- The per-node match test of `searchTasks`: case-insensitive substring
match on the title, or on the description when present (JS
`task.description?.toLowerCase().includes(...)` is falsy when the
description is absent). -/
def taskMatchesData (d : TaskData) (q : String) : Bool :=
  jsIncludes d.title q ||
    (match d.description with
     | some s => jsIncludes s q
     | none => false)

/-- The match test, on a task. -/
def taskMatches (t : Task) (q : String) : Bool := taskMatchesData t.data q

mutual
/-- Function `searchTasks` from the application file: keep a node when it matches
or its recursively filtered subtasks are non-empty; a kept node gets the
filtered subtasks and `expanded = true`. -/
def searchTasks : List Task → String → List Task
  | [], _ => []
  | t :: ts, query =>
    let childMatches := searchChildren t query
    if taskMatches t query || !childMatches.isEmpty then
      .node { t.data with expanded := true } childMatches :: searchTasks ts query
    else
      searchTasks ts query

/-- The `searchTasks(task.subtasks, query)` recursive call. -/
def searchChildren : Task → String → List Task
  | .node _ subs, query => searchTasks subs query
end

mutual
/-- Function `findTaskAndUpdate` from the application file: replace the node with
the target id by `updater(node)`; nodes with non-empty subtasks are
rebuilt around the recursive call, others returned as they are. -/
def findTaskAndUpdate : List Task → String → (Task → Task) → List Task
  | [], _, _ => []
  | t :: ts, targetId, updater =>
    (if t.id = targetId then updater t
     else if t.subtasks.isEmpty then t
     else updateChildren t targetId updater)
      :: findTaskAndUpdate ts targetId updater

/-- The `{...task, subtasks: findTaskAndUpdate(task.subtasks, ...)}`
rebuild. -/
def updateChildren : Task → String → (Task → Task) → Task
  | .node d subs, targetId, updater =>
    .node d (findTaskAndUpdate subs targetId updater)
end

mutual
/-- Function `findTaskAndAddSubtask` from the application file: append `newTask`
to the subtasks of the node with id `parentId` and force
`expanded = true` there. -/
def findTaskAndAddSubtask : List Task → String → Task → List Task
  | [], _, _ => []
  | t :: ts, parentId, newTask =>
    (if t.id = parentId then
      .node { t.data with expanded := true } (t.subtasks ++ [newTask])
     else if t.subtasks.isEmpty then t
     else addSubtaskChildren t parentId newTask)
      :: findTaskAndAddSubtask ts parentId newTask

/-- The `{...task, subtasks: findTaskAndAddSubtask(task.subtasks, ...)}`
rebuild. -/
def addSubtaskChildren : Task → String → Task → Task
  | .node d subs, parentId, newTask =>
    .node d (findTaskAndAddSubtask subs parentId newTask)
end

mutual
/-- Function `findTaskAndDelete` from the application file: filter the target id
out of every sibling list, recursively. -/
def findTaskAndDelete : List Task → String → List Task
  | [], _ => []
  | t :: ts, targetId =>
    if t.id = targetId then findTaskAndDelete ts targetId
    else deleteChildren t targetId :: findTaskAndDelete ts targetId

/-- The `{...task, subtasks: findTaskAndDelete(task.subtasks, ...)}`
rebuild. -/
def deleteChildren : Task → String → Task
  | .node d subs, targetId => .node d (findTaskAndDelete subs targetId)
end

mutual
/-- Depth-first preorder lookup by id (the `findDeep` / `getStatus`
traversal pattern of the application file, returning the node). -/
def findTask : List Task → String → Option Task
  | [], _ => none
  | t :: ts, targetId =>
    if t.id = targetId then some t
    else
      match findInChildren t targetId with
      | some r => some r
      | none => findTask ts targetId

/-- The recursive descent of `findTask` into one node's subtasks. -/
def findInChildren : Task → String → Option Task
  | .node _ subs, targetId => findTask subs targetId
end

mutual
/-- The `getStatus` helper inside `toggleTaskStatus` (both enum values
are truthy strings in the source, so `if (sub) return sub` is exactly a
first-match on `some`). -/
def getStatus : List Task → String → Option TaskStatus
  | [], _ => none
  | t :: ts, taskId =>
    if t.id = taskId then some t.status
    else
      match getStatusChildren t taskId with
      | some st => some st
      | none => getStatus ts taskId

/-- The recursive descent of `getStatus` into one node's subtasks. -/
def getStatusChildren : Task → String → Option TaskStatus
  | .node _ subs, taskId => getStatus subs taskId
end

/-- Drop position for `moveTask` (part of the drag-and-drop interface). -/
inductive Pos where
  | before
  | after
  | inside
deriving DecidableEq, Repr

/-- The level phase of `removeOp` inside `moveTask`:
`findIndex` + `splice` removes the first node of the current sibling
list whose id is `draggedId`, returning it and the remaining list. -/
def extractHere : List Task → String → Option (Task × List Task)
  | [], _ => none
  | t :: ts, draggedId =>
    if t.id = draggedId then some (t, ts)
    else
      match extractHere ts draggedId with
      | some (d, ts') => some (d, t :: ts')
      | none => none

mutual
/-- The `list.some(t => removeOp(t.subtasks))` phase of `removeOp`:
try to remove the dragged node from inside each node of the list, in
order, keeping the other nodes as they are. -/
def removeDeep : List Task → String → Option (Task × List Task)
  | [], _ => none
  | t :: ts, draggedId =>
    match removeNode t draggedId with
    | some (dr, t') => some (dr, t' :: ts)
    | none =>
      match removeDeep ts draggedId with
      | some (dr, ts') => some (dr, t :: ts')
      | none => none

/-- Phase `removeOp(t.subtasks)` for a single node `t`: level phase on the
subtasks, then the deep phase, rebuilding the node around the result. -/
def removeNode : Task → String → Option (Task × Task)
  | .node d subs, draggedId =>
    match extractHere subs draggedId with
    | some (dr, subs') => some (dr, .node d subs')
    | none =>
      match removeDeep subs draggedId with
      | some (dr, subs') => some (dr, .node d subs')
      | none => none
end

/-- Function `removeOp` from `moveTask`: `findIndex`/`splice` on the current
sibling list first, then `list.some(t => removeOp(t.subtasks))`. -/
def removeTask (ts : List Task) (draggedId : String) :
    Option (Task × List Task) :=
  match extractHere ts draggedId with
  | some r => some r
  | none => removeDeep ts draggedId

/-- The level phase of `insertOp` inside `moveTask`: when the target id
is in the current sibling list, insert the dragged node immediately
before it, immediately after it, or (for `inside`) push it onto the
target's subtasks and force `expanded = true`. -/
def insertHere : List Task → String → Pos → Task → Option (List Task)
  | [], _, _, _ => none
  | t :: ts, targetId, position, draggedItem =>
    if t.id = targetId then
      some (match position with
        | .before => draggedItem :: t :: ts
        | .after => t :: draggedItem :: ts
        | .inside =>
          Task.node { t.data with expanded := true }
            (t.subtasks ++ [draggedItem]) :: ts)
    else
      match insertHere ts targetId position draggedItem with
      | some ts' => some (t :: ts')
      | none => none

mutual
/-- The `list.some(t => insertOp(t.subtasks))` phase of `insertOp`:
try to insert inside each node of the list, in order. -/
def insertDeep : List Task → String → Pos → Task → Option (List Task)
  | [], _, _, _ => none
  | t :: ts, targetId, position, draggedItem =>
    match insertNode t targetId position draggedItem with
    | some t' => some (t' :: ts)
    | none =>
      match insertDeep ts targetId position draggedItem with
      | some ts' => some (t :: ts')
      | none => none

/-- Phase `insertOp(t.subtasks)` for a single node `t`: level phase on the
subtasks, then the deep phase, rebuilding the node around the result. -/
def insertNode : Task → String → Pos → Task → Option Task
  | .node d subs, targetId, position, draggedItem =>
    match insertHere subs targetId position draggedItem with
    | some subs' => some (.node d subs')
    | none =>
      match insertDeep subs targetId position draggedItem with
      | some subs' => some (.node d subs')
      | none => none
end

/-- Function `insertOp` from `moveTask`: the current sibling list first, then
`list.some(t => insertOp(t.subtasks))`. -/
def insertTask (ts : List Task) (targetId : String) (position : Pos)
    (draggedItem : Task) : Option (List Task) :=
  match insertHere ts targetId position draggedItem with
  | some r => some r
  | none => insertDeep ts targetId position draggedItem

/-- The forest-level behaviour of `moveTask` from the application file:
`removeOp` on a working copy; if the dragged node is not found the
project is returned unchanged; otherwise `insertOp` on the remainder;
if the target is not found the original forest is returned (the removal
is discarded with the working copy). -/
def moveTaskForest (ts : List Task) (draggedId targetId : String)
    (position : Pos) : List Task :=
  match removeTask ts draggedId with
  | none => ts
  | some (draggedItem, ts') =>
    match insertTask ts' targetId position draggedItem with
    | some ts'' => ts''
    | none => ts

/-- Function `modifyActiveProject` from the application file: when there is no
active project id the state is untouched; otherwise every project whose
id equals the active id is replaced by `updater(p)`. -/
def modifyActiveProject (activeProjectId : Option String)
    (updater : Project → Project) (s : AppState) : AppState :=
  match activeProjectId with
  | none => s
  | some pid =>
    { projects := s.projects.map (fun p => if p.id = pid then updater p else p) }

/-- The new task literal built by `addTask` (`generateId()` and
`Date.now()` passed explicitly). -/
def mkNewTask (newId logId title authorId : String) (now : Nat) : Task :=
  Task.node
    { id := newId, title := title, description := none,
      status := .PENDING, attachments := [],
      activity := [⟨logId, "Creado", .creation, now, authorId⟩],
      tags := [], expanded := true, createdBy := authorId } []

/-- Function `addTask` from the application file: no-op without a current user
(and, through `modifyActiveProject`, without an active project);
otherwise append the new task to the root forest (`parentId = null`) or
insert it via `findTaskAndAddSubtask`. -/
def addTask (currentUser : Option String) (activeProjectId : Option String)
    (parentId : Option String) (title : String) (newId logId : String)
    (now : Nat) (s : AppState) : AppState :=
  match currentUser with
  | none => s
  | some uid =>
    let newTask := mkNewTask newId logId title uid now
    modifyActiveProject activeProjectId (fun p =>
      match parentId with
      | none => { p with tasks := p.tasks ++ [newTask] }
      | some par => { p with tasks := findTaskAndAddSubtask p.tasks par newTask }) s

/-- Function `updateTask` from the application file (the `{...t, ...updates}`
merge is the abstract updater). -/
def updateTask (activeProjectId : Option String) (taskId : String)
    (updater : Task → Task) (s : AppState) : AppState :=
  modifyActiveProject activeProjectId
    (fun p => { p with tasks := findTaskAndUpdate p.tasks taskId updater }) s

/-- Function `deleteTask` from the application file. -/
def deleteTask (activeProjectId : Option String) (taskId : String)
    (s : AppState) : AppState :=
  modifyActiveProject activeProjectId
    (fun p => { p with tasks := findTaskAndDelete p.tasks taskId }) s

/-- Function `moveTask` from the application file, as a project-scoped wrapper
over the forest-level relocation. -/
def moveTask (activeProjectId : Option String) (draggedId targetId : String)
    (position : Pos) (s : AppState) : AppState :=
  modifyActiveProject activeProjectId
    (fun p => { p with tasks := moveTaskForest p.tasks draggedId targetId position }) s

/-- The `PENDING ↔ COMPLETED` flip inside `toggleTaskStatus`. -/
def flipStatus : TaskStatus → TaskStatus
  | .COMPLETED => .PENDING
  | .PENDING => .COMPLETED

/-- The activity text written by `toggleTaskStatus` for the new status. -/
def statusChangeText : TaskStatus → String
  | .COMPLETED => "Completó la tarea"
  | .PENDING => "Reabrió la tarea"

/-- The forest-level behaviour of `toggleTaskStatus`: look the current
status up with `getStatus`; when absent do nothing; otherwise flip it
and append one `status_change` activity entry at the task. -/
def toggleForest (tasks : List Task) (taskId authorId logId : String)
    (now : Nat) : List Task :=
  match getStatus tasks taskId with
  | none => tasks
  | some currentStatus =>
    let newStatus := flipStatus currentStatus
    let log : ActivityLog :=
      ⟨logId, statusChangeText newStatus, .status_change, now, authorId⟩
    findTaskAndUpdate tasks taskId (fun t =>
      Task.node
        { t.data with
          status := newStatus
          activity := t.data.activity ++ [log] }
        t.subtasks)

/-- Function `toggleTaskStatus` from the application file. -/
def toggleTaskStatus (activeProjectId : Option String)
    (taskId authorId logId : String) (now : Nat) (s : AppState) : AppState :=
  modifyActiveProject activeProjectId
    (fun p => { p with tasks := toggleForest p.tasks taskId authorId logId now }) s

/-- Function `addActivity` from the application file. -/
def addActivity (currentUser : Option String) (activeProjectId : Option String)
    (taskId content : String) (ltype : LogType) (logId : String) (now : Nat)
    (s : AppState) : AppState :=
  match currentUser with
  | none => s
  | some uid =>
    modifyActiveProject activeProjectId
      (fun p => { p with tasks := findTaskAndUpdate p.tasks taskId (fun t =>
        Task.node { t.data with
          activity := t.data.activity ++ [⟨logId, content, ltype, now, uid⟩] }
          t.subtasks) }) s

/-- Function `addAttachment` from the application file. -/
def addAttachment (currentUser : Option String)
    (activeProjectId : Option String) (taskId : String)
    (atype : AttachmentType) (name url attId : String) (now : Nat)
    (s : AppState) : AppState :=
  match currentUser with
  | none => s
  | some uid =>
    modifyActiveProject activeProjectId
      (fun p => { p with tasks := findTaskAndUpdate p.tasks taskId (fun t =>
        Task.node { t.data with
          attachments := t.data.attachments ++ [⟨attId, name, atype, url, now, uid⟩] }
          t.subtasks) }) s

/-- Function `toggleExpand` from the application file. -/
def toggleExpand (activeProjectId : Option String) (taskId : String)
    (s : AppState) : AppState :=
  modifyActiveProject activeProjectId
    (fun p => { p with tasks := findTaskAndUpdate p.tasks taskId (fun t =>
      Task.node { t.data with expanded := !t.data.expanded } t.subtasks) }) s

/-- Round a nonnegative rational to the nearest integer, halves up:
`⌊q + 1/2⌋₊` (the behaviour of JavaScript `Math.round` on the
nonnegative values produced here). -/
def roundHalfUp (q : ℚ) : ℕ := ⌊q + 1 / 2⌋₊

/-- Reusable sample node data for concrete instances. -/
def sampleData (i : String) (st : TaskStatus) : TaskData :=
  { id := i, title := i, description := none, status := st,
    attachments := [], activity := [], tags := [], expanded := false,
    createdBy := "u1" }

/-- A sample pending leaf. -/
def leafP (i : String) : Task := Task.node (sampleData i .PENDING) []

/-- A sample completed leaf. -/
def leafC (i : String) : Task := Task.node (sampleData i .COMPLETED) []

/-- Relation `SibUpd ts ts' L L'`: forest `ts'` is forest `ts` with one complete
sibling list — the root list itself, or the full subtask list of one
node — equal to `L`, replaced by `L'`.  This is the specification
vocabulary for where `moveTask` removes and re-inserts. -/
inductive SibUpd : List Task → List Task → List Task → List Task → Prop where
  | top (L L' : List Task) : SibUpd L L' L L'
  | skip (t : Task) {ts ts' L L' : List Task} :
      SibUpd ts ts' L L' → SibUpd (t :: ts) (t :: ts') L L'
  | down (d : TaskData) {subs subs' L L' : List Task} (ts : List Task) :
      SibUpd subs subs' L L' →
      SibUpd (.node d subs :: ts) (.node d subs' :: ts) L L'

/-- The sibling list produced by a successful insertion at the target
`tgt` (occurring as `pre ++ tgt :: post`): the dragged node goes
immediately before the target, immediately after it, or (for `inside`)
to the end of the target's subtasks with the target forced expanded. -/
def insShape (position : Pos) (tgt d : Task) (pre post : List Task) : List Task :=
  match position with
  | .before => pre ++ d :: tgt :: post
  | .after => pre ++ tgt :: d :: post
  | .inside =>
    pre ++ Task.node { tgt.data with expanded := true }
      (tgt.subtasks ++ [d]) :: post

/-! ### Basic lemmas about `allTasks` and `idsOf` -/

@[simp] theorem allTasks_nil : allTasks [] = [] := by
  simp [allTasks]

theorem allTasks_cons (t : Task) (ts : List Task) :
    allTasks (t :: ts) = t :: (allTasks t.subtasks ++ allTasks ts) := by
  obtain ⟨d, subs⟩ := t
  rw [allTasks, allOf]
  simp

theorem allTasks_append (l₁ l₂ : List Task) :
    allTasks (l₁ ++ l₂) = allTasks l₁ ++ allTasks l₂ := by
  induction l₁ with
  | nil => simp
  | cons t ts ih => simp [allTasks_cons, ih]

@[simp] theorem idsOf_nil : idsOf [] = [] := by
  simp [idsOf]

theorem idsOf_cons (t : Task) (ts : List Task) :
    idsOf (t :: ts) = t.id :: (idsOf t.subtasks ++ idsOf ts) := by
  simp [idsOf, allTasks_cons]

theorem idsOf_append (l₁ l₂ : List Task) :
    idsOf (l₁ ++ l₂) = idsOf l₁ ++ idsOf l₂ := by
  simp [idsOf, allTasks_append]

theorem idsOf_singleton (t : Task) :
    idsOf [t] = t.id :: idsOf t.subtasks := by
  simp [idsOf_cons]

theorem mem_allTasks_of_mem {t : Task} {ts : List Task} (h : t ∈ ts) :
    t ∈ allTasks ts := by
  induction ts with
  | nil => cases h
  | cons u us ih =>
    rw [allTasks_cons]
    rcases List.mem_cons.mp h with h | h
    · subst h
      exact List.mem_cons_self _ _
    · exact List.mem_cons_of_mem _ (List.mem_append_right _ (ih h))

theorem id_mem_idsOf {t : Task} {ts : List Task} (h : t ∈ allTasks ts) :
    t.id ∈ idsOf ts := List.mem_map_of_mem Task.id h

/-- The top-level ids of a forest are a sublist of all its ids. -/
theorem topIds_sublist (ts : List Task) :
    (ts.map Task.id).Sublist (idsOf ts) := by
  induction ts with
  | nil => simp
  | cons t us ih =>
    rw [List.map_cons, idsOf_cons]
    exact (ih.trans (List.sublist_append_right _ _)).cons₂ _

/-- In a forest with globally distinct ids, two nodes with the same id
are equal. -/
theorem node_unique {ts : List Task} (hnd : (idsOf ts).Nodup)
    {a b : Task} (ha : a ∈ allTasks ts) (hb : b ∈ allTasks ts)
    (hid : a.id = b.id) : a = b :=
  List.inj_on_of_nodup_map hnd ha hb hid

/-! ### C1: progress computation -/

theorem sumProgress_eq_sum_map (ts : List Task) :
    sumProgress ts = (ts.map getTaskProgress).sum := by
  induction ts with
  | nil => rfl
  | cons t us ih => rw [sumProgress, List.map_cons, List.sum_cons, ih]

theorem progress_div_le (S n : ℕ) (hn : 0 < n) (hS : S ≤ 100 * n) :
    (2 * S + n) / (2 * n) ≤ 100 := by
  have h2n : 0 < 2 * n := by omega
  have h := (Nat.div_lt_iff_lt_mul h2n).mpr
    (show 2 * S + n < 101 * (2 * n) by omega)
  omega

theorem roundHalfUp_div (S n : ℕ) (hn : 0 < n) :
    roundHalfUp ((S : ℚ) / (n : ℚ)) = (2 * S + n) / (2 * n) := by
  have hn' : (n : ℚ) ≠ 0 := Nat.cast_ne_zero.mpr hn.ne'
  have key : (S : ℚ) / (n : ℚ) + 1 / 2 = ((2 * S + n : ℕ) : ℚ) / ((2 * n : ℕ) : ℚ) := by
    push_cast
    field_simp
    ring
  rw [roundHalfUp, key, Nat.floor_div_nat, Nat.floor_natCast]

mutual
theorem getTaskProgress_le : ∀ t : Task, getTaskProgress t ≤ 100
  | .node d [] => by
    rw [getTaskProgress]
    split <;> omega
  | .node d (s :: ss) => by
    rw [getTaskProgress]
    exact progress_div_le _ _ (by simp) (by
      simpa [Nat.mul_comm] using sumProgress_le (s :: ss))

theorem sumProgress_le : ∀ ts : List Task, sumProgress ts ≤ 100 * ts.length
  | [] => by simp [sumProgress]
  | t :: ts => by
    rw [sumProgress]
    have h1 := getTaskProgress_le t
    have h2 := sumProgress_le ts
    simp only [List.length_cons]
    omega
end

/-- C1: a leaf task's progress is 100 when COMPLETED and 0 otherwise; a
non-leaf task's progress is the arithmetic mean of its immediate
children's progress rounded to the nearest integer with halves rounded
up, and the progress always lies in [0, 100] (it is a `Nat`, so the
lower bound is inherent). -/
theorem c1_progress_spec (t : Task) :
    (t.subtasks = [] →
      getTaskProgress t = (if t.status = .COMPLETED then 100 else 0)) ∧
    (t.subtasks ≠ [] →
      getTaskProgress t =
        roundHalfUp (((t.subtasks.map getTaskProgress).sum : ℚ) /
          (t.subtasks.length : ℚ))) ∧
    getTaskProgress t ≤ 100 := by
  obtain ⟨d, subs⟩ := t
  refine ⟨?_, ?_, getTaskProgress_le _⟩
  · intro h
    simp only [Task.subtasks_node] at h
    subst h
    rw [getTaskProgress]
    rfl
  · intro h
    simp only [Task.subtasks_node] at h
    match subs, h with
    | s :: ss, _ =>
      rw [getTaskProgress, Task.subtasks_node,
        roundHalfUp_div _ _ (by simp), sumProgress_eq_sum_map]

/-- Witness for C1: a pending leaf has progress 0, and a node with one
completed and one pending child has progress `roundHalfUp(100/2) = 50`. -/
theorem c1_progress_witness :
    ((leafP "a").subtasks = [] ∧ getTaskProgress (leafP "a") = 0) ∧
    ((Task.node (sampleData "p" .PENDING) [leafC "b", leafP "c"]).subtasks ≠ [] ∧
      getTaskProgress (Task.node (sampleData "p" .PENDING) [leafC "b", leafP "c"]) =
        roundHalfUp ((((Task.node (sampleData "p" .PENDING)
          [leafC "b", leafP "c"]).subtasks.map getTaskProgress).sum : ℚ) /
          ((Task.node (sampleData "p" .PENDING) [leafC "b", leafP "c"]).subtasks.length : ℚ)) ∧
      getTaskProgress (Task.node (sampleData "p" .PENDING) [leafC "b", leafP "c"]) = 50) := by
  refine ⟨⟨rfl, ?_⟩, ⟨by simp, ?_, by decide⟩⟩
  · have h := (c1_progress_spec (leafP "a")).1 rfl
    simpa [leafP, sampleData, Task.status] using h
  · exact (c1_progress_spec _).2.1 (by simp)

/-! ### Not-found behaviour of the targeted primitives (C5) -/

theorem findTaskAndUpdate_not_found :
    ∀ (ts : List Task) (tid : String) (f : Task → Task),
      tid ∉ idsOf ts → findTaskAndUpdate ts tid f = ts
  | [], _, _, _ => by simp [findTaskAndUpdate]
  | .node d subs :: ts, tid, f, h => by
    rw [idsOf_cons] at h
    simp only [Task.id, Task.data_node, Task.subtasks_node, List.mem_cons,
      List.mem_append] at h
    push_neg at h
    obtain ⟨hid, hsubs, hts⟩ := h
    rw [findTaskAndUpdate, updateChildren, if_neg (fun hh => hid hh.symm),
      findTaskAndUpdate_not_found subs tid f hsubs,
      findTaskAndUpdate_not_found ts tid f hts]
    split <;> rfl

theorem findTaskAndAddSubtask_not_found :
    ∀ (ts : List Task) (pid : String) (nt : Task),
      pid ∉ idsOf ts → findTaskAndAddSubtask ts pid nt = ts
  | [], _, _, _ => by simp [findTaskAndAddSubtask]
  | .node d subs :: ts, pid, nt, h => by
    rw [idsOf_cons] at h
    simp only [Task.id, Task.data_node, Task.subtasks_node, List.mem_cons,
      List.mem_append] at h
    push_neg at h
    obtain ⟨hid, hsubs, hts⟩ := h
    rw [findTaskAndAddSubtask, addSubtaskChildren, if_neg (fun hh => hid hh.symm),
      findTaskAndAddSubtask_not_found subs pid nt hsubs,
      findTaskAndAddSubtask_not_found ts pid nt hts]
    split <;> rfl

theorem findTaskAndDelete_not_found :
    ∀ (ts : List Task) (tid : String),
      tid ∉ idsOf ts → findTaskAndDelete ts tid = ts
  | [], _, _ => by simp [findTaskAndDelete]
  | .node d subs :: ts, tid, h => by
    rw [idsOf_cons] at h
    simp only [Task.id, Task.data_node, Task.subtasks_node, List.mem_cons,
      List.mem_append] at h
    push_neg at h
    obtain ⟨hid, hsubs, hts⟩ := h
    rw [findTaskAndDelete, deleteChildren, if_neg (fun hh => hid hh.symm),
      findTaskAndDelete_not_found subs tid hsubs,
      findTaskAndDelete_not_found ts tid hts]

/-- C5: when the target id occurs nowhere in the forest,
`findTaskAndUpdate`, `findTaskAndDelete` and `findTaskAndAddSubtask`
all return the forest unchanged (the functions are total, so no
exception path exists; value equality is the shallow-embedding
rendering of identity). -/
theorem c5_not_found_noop (ts : List Task) (tid : String) (f : Task → Task)
    (nt : Task) (h : tid ∉ idsOf ts) :
    findTaskAndUpdate ts tid f = ts ∧
    findTaskAndDelete ts tid = ts ∧
    findTaskAndAddSubtask ts tid nt = ts :=
  ⟨findTaskAndUpdate_not_found ts tid f h,
   findTaskAndDelete_not_found ts tid h,
   findTaskAndAddSubtask_not_found ts tid nt h⟩

/-- Witness for C5 on a concrete two-level forest and an absent id. -/
theorem c5_not_found_witness :
    ("zz" ∉ idsOf [Task.node (sampleData "a" .PENDING) [leafP "b"], leafC "c"]) ∧
    (findTaskAndUpdate [Task.node (sampleData "a" .PENDING) [leafP "b"], leafC "c"] "zz" id =
      [Task.node (sampleData "a" .PENDING) [leafP "b"], leafC "c"] ∧
    findTaskAndDelete [Task.node (sampleData "a" .PENDING) [leafP "b"], leafC "c"] "zz" =
      [Task.node (sampleData "a" .PENDING) [leafP "b"], leafC "c"] ∧
    findTaskAndAddSubtask [Task.node (sampleData "a" .PENDING) [leafP "b"], leafC "c"] "zz" (leafP "n") =
      [Task.node (sampleData "a" .PENDING) [leafP "b"], leafC "c"]) :=
  ⟨by decide,
   c5_not_found_noop _ "zz" id (leafP "n") (by decide)⟩

/-! ### Lookup lemmas for `findTask` and `getStatus` -/

theorem findTask_not_found :
    ∀ (ts : List Task) (tid : String), tid ∉ idsOf ts → findTask ts tid = none
  | [], _, _ => by simp [findTask]
  | .node d subs :: ts, tid, h => by
    rw [idsOf_cons] at h
    simp only [Task.id, Task.data_node, Task.subtasks_node, List.mem_cons,
      List.mem_append] at h
    push_neg at h
    obtain ⟨hid, hsubs, hts⟩ := h
    rw [findTask, findInChildren, if_neg (fun hh => hid hh.symm),
      findTask_not_found subs tid hsubs, findTask_not_found ts tid hts]

theorem findTask_mem :
    ∀ {ts : List Task} {tid : String} {t : Task},
      findTask ts tid = some t → t ∈ allTasks ts ∧ t.id = tid
  | [], tid, t, h => by simp [findTask] at h
  | .node d subs :: ts, tid, t, h => by
    rw [findTask, findInChildren] at h
    split at h
    next hd =>
      cases h
      refine ⟨by rw [allTasks_cons]; exact List.mem_cons_self _ _, hd⟩
    next hd =>
      split at h
      next r hsub =>
        cases h
        obtain ⟨hm, hi⟩ := findTask_mem hsub
        exact ⟨by
          rw [allTasks_cons]
          exact List.mem_cons_of_mem _ (List.mem_append_left _ hm), hi⟩
      next hsub =>
        obtain ⟨hm, hi⟩ := findTask_mem h
        exact ⟨by
          rw [allTasks_cons]
          exact List.mem_cons_of_mem _ (List.mem_append_right _ hm), hi⟩

theorem findTask_isSome_of_mem :
    ∀ (ts : List Task) (tid : String), tid ∈ idsOf ts →
      ∃ t, findTask ts tid = some t
  | [], tid, h => by simp at h
  | .node d subs :: ts, tid, h => by
    rw [findTask, findInChildren]
    by_cases hd : (Task.node d subs).id = tid
    · rw [if_pos hd]
      exact ⟨_, rfl⟩
    · rw [if_neg hd]
      rw [idsOf_cons] at h
      simp only [Task.id_node, Task.subtasks_node, List.mem_cons,
        List.mem_append] at h
      rcases h with h | h | h
      · exact absurd h.symm hd
      · obtain ⟨r, hr⟩ := findTask_isSome_of_mem subs tid h
        rw [hr]
        exact ⟨r, rfl⟩
      · obtain ⟨r, hr⟩ := findTask_isSome_of_mem ts tid h
        cases hsub : findTask subs tid with
        | some r₂ => exact ⟨r₂, rfl⟩
        | none =>
          rw [hr]
          exact ⟨r, rfl⟩

theorem getStatus_eq_findTask :
    ∀ (ts : List Task) (tid : String),
      getStatus ts tid = (findTask ts tid).map Task.status
  | [], tid => by simp [getStatus, findTask]
  | .node d subs :: ts, tid => by
    rw [getStatus, findTask, getStatusChildren, findInChildren]
    by_cases hd : (Task.node d subs).id = tid
    · rw [if_pos hd, if_pos hd]
      rfl
    · rw [if_neg hd, if_neg hd, getStatus_eq_findTask subs tid,
        getStatus_eq_findTask ts tid]
      cases findTask subs tid <;> simp

/-! ### C4: recursive search -/

theorem searchTasks_eq_filterMap (ts : List Task) (q : String) :
    searchTasks ts q = ts.filterMap (fun t =>
      if taskMatches t q || !(searchTasks t.subtasks q).isEmpty then
        some (Task.node { t.data with expanded := true } (searchTasks t.subtasks q))
      else none) := by
  induction ts with
  | nil => simp [searchTasks]
  | cons t us ih =>
    obtain ⟨d, subs⟩ := t
    rw [List.filterMap_cons]
    simp only [searchTasks, searchChildren, Task.subtasks_node, Task.data_node]
    split <;> rw [ih]

theorem searchTasks_expanded :
    ∀ (ts : List Task) (q : String) (u : Task),
      u ∈ allTasks (searchTasks ts q) → u.expanded = true
  | [], q, u => by simp [searchTasks]
  | t :: ts, q, u => by
    obtain ⟨d, subs⟩ := t
    intro hu
    simp only [searchTasks, searchChildren] at hu
    split at hu
    · rw [allTasks_cons] at hu
      rcases List.mem_cons.mp hu with h | h
      · subst h
        rfl
      · rcases List.mem_append.mp h with h | h
        · exact searchTasks_expanded subs q u (by simpa using h)
        · exact searchTasks_expanded ts q u h
    · exact searchTasks_expanded ts q u hu

/-- C4: for a non-empty query, a node is kept exactly when it matches
(case-insensitive substring of title or description) or its recursively
filtered subtask forest is non-empty; a kept node carries the filtered
subtasks instead of the original ones, and every node anywhere in the
returned forest has `expanded = true`. -/
theorem c4_search_spec (ts : List Task) (q : String) (hq : q ≠ "") :
    searchTasks ts q = ts.filterMap (fun t =>
      if taskMatches t q || !(searchTasks t.subtasks q).isEmpty then
        some (Task.node { t.data with expanded := true } (searchTasks t.subtasks q))
      else none) ∧
    ∀ u ∈ allTasks (searchTasks ts q), u.expanded = true :=
  ⟨searchTasks_eq_filterMap ts q, fun u hu => searchTasks_expanded ts q u hu⟩

/-- Witness for C4 on the spec's scenario: searching "buy" in
`[Buy milk, Call dentist [Buy bread]]` keeps all three nodes, with the
`Buy bread` leaf kept under `Call dentist` and everything expanded. -/
theorem c4_search_witness :
    ("buy" : String) ≠ "" ∧
    (searchTasks [Task.node (sampleData "Buy milk" .PENDING) [],
        Task.node (sampleData "Call dentist" .PENDING)
          [Task.node (sampleData "Buy bread" .PENDING) []]] "buy" =
      [Task.node (sampleData "Buy milk" .PENDING) [],
        Task.node (sampleData "Call dentist" .PENDING)
          [Task.node (sampleData "Buy bread" .PENDING) []]].filterMap (fun t =>
        if taskMatches t "buy" || !(searchTasks t.subtasks "buy").isEmpty then
          some (Task.node { t.data with expanded := true } (searchTasks t.subtasks "buy"))
        else none) ∧
      ∀ u ∈ allTasks (searchTasks [Task.node (sampleData "Buy milk" .PENDING) [],
        Task.node (sampleData "Call dentist" .PENDING)
          [Task.node (sampleData "Buy bread" .PENDING) []]] "buy"), u.expanded = true) ∧
    (searchTasks [Task.node (sampleData "Buy milk" .PENDING) [],
        Task.node (sampleData "Call dentist" .PENDING)
          [Task.node (sampleData "Buy bread" .PENDING) []]] "buy").map
        (fun t => (t.id, t.expanded, t.subtasks.map Task.id)) =
      [("Buy milk", true, []), ("Call dentist", true, [("Buy bread" : String)])] :=
  ⟨by decide, c4_search_spec _ "buy" (by decide), by decide⟩

/-! ### C9: frame property of the project-scoped mutations -/

theorem modifyActiveProject_frame (apid : Option String)
    (f : Project → Project) (s : AppState) :
    List.Forall₂ (fun p q => q = p ∨ some p.id = apid)
      s.projects (modifyActiveProject apid f s).projects := by
  cases apid with
  | none => exact List.forall₂_same.mpr (fun a _ => Or.inl rfl)
  | some pid =>
    rw [modifyActiveProject]
    show List.Forall₂ _ s.projects (s.projects.map _)
    induction s.projects with
    | nil => exact List.Forall₂.nil
    | cons p l ih =>
      rw [List.map_cons]
      refine List.Forall₂.cons ?_ ih
      by_cases h : p.id = pid
      · exact Or.inr (by rw [h])
      · rw [if_neg h]
        exact Or.inl rfl

/-- C9: every project-scoped mutation leaves the number and order of
projects intact (`List.Forall₂` relates the lists positionally) and
changes at most the projects whose id is the active project id; every
other project is returned unchanged. -/
theorem c9_frame_spec :
    (∀ cu apid pid title nid lid now s, List.Forall₂
      (fun p q => q = p ∨ some p.id = apid) s.projects
      (addTask cu apid pid title nid lid now s).projects) ∧
    (∀ apid tid f s, List.Forall₂
      (fun p q => q = p ∨ some p.id = apid) s.projects
      (updateTask apid tid f s).projects) ∧
    (∀ apid tid s, List.Forall₂
      (fun p q => q = p ∨ some p.id = apid) s.projects
      (deleteTask apid tid s).projects) ∧
    (∀ apid did tid pos s, List.Forall₂
      (fun p q => q = p ∨ some p.id = apid) s.projects
      (moveTask apid did tid pos s).projects) ∧
    (∀ apid tid au lid now s, List.Forall₂
      (fun p q => q = p ∨ some p.id = apid) s.projects
      (toggleTaskStatus apid tid au lid now s).projects) ∧
    (∀ cu apid tid content lt lid now s, List.Forall₂
      (fun p q => q = p ∨ some p.id = apid) s.projects
      (addActivity cu apid tid content lt lid now s).projects) ∧
    (∀ cu apid tid aty nm url aid now s, List.Forall₂
      (fun p q => q = p ∨ some p.id = apid) s.projects
      (addAttachment cu apid tid aty nm url aid now s).projects) ∧
    (∀ apid tid s, List.Forall₂
      (fun p q => q = p ∨ some p.id = apid) s.projects
      (toggleExpand apid tid s).projects) := by
  refine ⟨?_, ?_, ?_, ?_, ?_, ?_, ?_, ?_⟩
  · intro cu apid pid title nid lid now s
    cases cu with
    | none => exact List.forall₂_same.mpr (fun a _ => Or.inl rfl)
    | some uid => exact modifyActiveProject_frame apid _ s
  · intro apid tid f s
    exact modifyActiveProject_frame apid _ s
  · intro apid tid s
    exact modifyActiveProject_frame apid _ s
  · intro apid did tid pos s
    exact modifyActiveProject_frame apid _ s
  · intro apid tid au lid now s
    exact modifyActiveProject_frame apid _ s
  · intro cu apid tid content lt lid now s
    cases cu with
    | none => exact List.forall₂_same.mpr (fun a _ => Or.inl rfl)
    | some uid => exact modifyActiveProject_frame apid _ s
  · intro cu apid tid aty nm url aid now s
    cases cu with
    | none => exact List.forall₂_same.mpr (fun a _ => Or.inl rfl)
    | some uid => exact modifyActiveProject_frame apid _ s
  · intro apid tid s
    exact modifyActiveProject_frame apid _ s

/-! ### Localizing `findTaskAndUpdate` under globally unique ids -/

theorem nodup_cons_parts {d : TaskData} {subs ts : List Task}
    (h : (idsOf (.node d subs :: ts)).Nodup) :
    d.id ∉ idsOf subs ∧ d.id ∉ idsOf ts ∧ (idsOf subs).Nodup ∧
    (idsOf ts).Nodup ∧ (idsOf subs).Disjoint (idsOf ts) := by
  rw [idsOf_cons] at h
  simp only [Task.id_node, Task.subtasks_node] at h
  rw [List.nodup_cons, List.nodup_append] at h
  obtain ⟨hd, hsub, hts, hdisj⟩ := h
  simp only [List.mem_append] at hd
  push_neg at hd
  exact ⟨hd.1, hd.2, hsub, hts, hdisj⟩

theorem findTaskAndUpdate_found :
    ∀ {ts : List Task} {tid : String} {f : Task → Task} {t : Task},
      (idsOf ts).Nodup → findTask ts tid = some t → (f t).id = t.id →
      findTask (findTaskAndUpdate ts tid f) tid = some (f t)
  | [], tid, f, t, _, h, _ => by simp [findTask] at h
  | .node d subs :: ts, tid, f, t, hnd, h, hf => by
    obtain ⟨hd1, hd2, hndsub, hndts, hdisj⟩ := nodup_cons_parts hnd
    rw [findTask, findInChildren] at h
    simp only [Task.id_node] at h
    rw [findTaskAndUpdate, updateChildren]
    simp only [Task.id_node, Task.subtasks_node]
    by_cases hdeq : d.id = tid
    · rw [if_pos hdeq] at h
      cases h
      rw [if_pos hdeq, findTask]
      rw [if_pos (show (f (Task.node d subs)).id = tid by rw [hf]; exact hdeq)]
    · rw [if_neg hdeq] at h
      rw [if_neg hdeq]
      cases hsub : findTask subs tid with
      | some r =>
        rw [hsub] at h
        cases h
        have hne : ¬ subs.isEmpty = true := by
          intro hh
          rw [List.isEmpty_iff] at hh
          subst hh
          simp [findTask] at hsub
        rw [if_neg hne, findTask, findInChildren]
        simp only [Task.id_node]
        rw [if_neg hdeq, findTaskAndUpdate_found hndsub hsub hf]
      | none =>
        rw [hsub] at h
        have hnm : tid ∉ idsOf subs := by
          intro hmem
          obtain ⟨r, hr⟩ := findTask_isSome_of_mem subs tid hmem
          rw [hr] at hsub
          cases hsub
        rw [findTaskAndUpdate_not_found subs tid f hnm]
        have hhead : (if subs.isEmpty = true then Task.node d subs
            else Task.node d subs) = Task.node d subs := by split <;> rfl
        rw [hhead, findTask, findInChildren]
        simp only [Task.id_node]
        rw [if_neg hdeq, hsub, findTaskAndUpdate_found hndts h hf]

/-! ### C7: toggling a task's status -/

/-- C7: in a forest with globally unique ids that contains a task `t`
with the given id, `toggleTaskStatus`'s forest transformation replaces
`t` by the same node with the status flipped (`PENDING ↔ COMPLETED`)
and exactly one `status_change` activity entry, authored by the
invoking user, appended to its activity list. -/
theorem c7_toggle_spec (ts : List Task) (tid author lid : String) (now : Nat)
    (t : Task) (hnd : (idsOf ts).Nodup) (hf : findTask ts tid = some t) :
    findTask (toggleForest ts tid author lid now) tid =
      some (Task.node
        { t.data with
          status := flipStatus t.status
          activity := t.data.activity ++
            [⟨lid, statusChangeText (flipStatus t.status), .status_change, now, author⟩] }
        t.subtasks) ∧
    flipStatus .PENDING = .COMPLETED ∧ flipStatus .COMPLETED = .PENDING := by
  refine ⟨?_, rfl, rfl⟩
  rw [toggleForest, getStatus_eq_findTask, hf]
  simp only [Option.map_some']
  exact findTaskAndUpdate_found hnd hf rfl

/-- Witness for C7: the spec's scenario — toggling the only (PENDING)
leaf yields COMPLETED status, exactly one new `status_change` entry and
progress 100. -/
theorem c7_toggle_witness :
    ((idsOf [leafP "a"]).Nodup ∧ findTask [leafP "a"] "a" = some (leafP "a")) ∧
    findTask (toggleForest [leafP "a"] "a" "u1" "l1" 7) "a" =
      some (Task.node
        { (leafP "a").data with
          status := flipStatus (leafP "a").status
          activity := (leafP "a").data.activity ++
            [⟨"l1", statusChangeText (flipStatus (leafP "a").status), .status_change, 7, "u1"⟩] }
        (leafP "a").subtasks) ∧
    (toggleForest [leafP "a"] "a" "u1" "l1" 7).map Task.status = [.COMPLETED] ∧
    (toggleForest [leafP "a"] "a" "u1" "l1" 7).map (fun t => t.activity.length) = [1] ∧
    (toggleForest [leafP "a"] "a" "u1" "l1" 7).map getTaskProgress = [100] :=
  ⟨⟨by decide, rfl⟩,
   (c7_toggle_spec [leafP "a"] "a" "u1" "l1" 7 (leafP "a") (by decide) rfl).1,
   by decide, by decide, by decide⟩

/-! ### C6: adding a task -/

theorem findTaskAndAddSubtask_eq_update :
    ∀ (ts : List Task) (pid : String) (nt : Task),
      findTaskAndAddSubtask ts pid nt =
        findTaskAndUpdate ts pid (fun t =>
          Task.node { t.data with expanded := true } (t.subtasks ++ [nt]))
  | [], _, _ => by simp [findTaskAndAddSubtask, findTaskAndUpdate]
  | .node d subs :: ts, pid, nt => by
    rw [findTaskAndAddSubtask, findTaskAndUpdate, addSubtaskChildren,
      updateChildren, findTaskAndAddSubtask_eq_update subs pid nt,
      findTaskAndAddSubtask_eq_update ts pid nt]

/-- C6 (amended): `addTask` is a no-op when there is no current user or
no active project; otherwise it builds the new task with status
PENDING, empty subtasks/attachments/tags, `expanded = true`,
`createdBy` the invoking user and exactly one `creation` activity
entry, and appends it at the end of the root forest
(`parentId = null`) or at the end of the parent's subtasks (forcing the
parent expanded).  The code performs no title check: the empty-title
guard lives in the caller. -/
theorem c6_addTask_amended :
    (∀ apid pid title nid lid now s,
      addTask none apid pid title nid lid now s = s) ∧
    (∀ cu pid title nid lid now s,
      addTask cu none pid title nid lid now s = s) ∧
    (∀ nid lid title uid now, mkNewTask nid lid title uid now =
      Task.node {
        id := nid, title := title, description := none,
        status := .PENDING, attachments := [],
        activity := [⟨lid, "Creado", .creation, now, uid⟩], tags := [],
        expanded := true, createdBy := uid } []) ∧
    (∀ uid pidv title nid lid now s,
      (addTask (some uid) (some pidv) none title nid lid now s).projects =
        s.projects.map (fun p => if p.id = pidv then
          { p with tasks := p.tasks ++ [mkNewTask nid lid title uid now] } else p)) ∧
    (∀ (ts : List Task) (par : String) (nt parent : Task),
      (idsOf ts).Nodup → findTask ts par = some parent →
      findTask (findTaskAndAddSubtask ts par nt) par =
        some (Task.node { parent.data with expanded := true }
          (parent.subtasks ++ [nt]))) := by
  refine ⟨fun _ _ _ _ _ _ _ => rfl, ?_, fun _ _ _ _ _ => rfl,
    fun _ _ _ _ _ _ _ => rfl, ?_⟩
  · intro cu pid title nid lid now s
    cases cu <;> rfl
  · intro ts par nt parent hnd hf
    rw [findTaskAndAddSubtask_eq_update]
    exact findTaskAndUpdate_found hnd hf rfl

/-- Counterexample to C6 as stated: with a current user and an active
project, `addTask` with a title that is already empty (hence empty
after trimming) is NOT a no-op — the task is inserted anyway; the
`value.trim()` guard lives in the input modal, not in `addTask`. -/
theorem c6_addTask_counterexample :
    ¬ (addTask (some "u1") (some "p1") none "" "t1" "l1" 0
        ⟨[{ id := "p1", title := "P", subtitle := "S", createdAt := 0,
            createdBy := "u1", tasks := [], themeColor := none }]⟩ =
      ⟨[{ id := "p1", title := "P", subtitle := "S", createdAt := 0,
          createdBy := "u1", tasks := [], themeColor := none }]⟩) := by
  intro h
  exact absurd
    (congrArg (fun s => s.projects.map (fun p => p.tasks.length)) h)
    (by decide)

/-- Witness for C6 (amended), parent-insertion case on a concrete
forest. -/
theorem c6_addTask_witness :
    ((idsOf [Task.node (sampleData "p" .PENDING) [leafP "c"]]).Nodup ∧
     findTask [Task.node (sampleData "p" .PENDING) [leafP "c"]] "p" =
       some (Task.node (sampleData "p" .PENDING) [leafP "c"])) ∧
    findTask (findTaskAndAddSubtask
        [Task.node (sampleData "p" .PENDING) [leafP "c"]] "p" (leafP "n")) "p" =
      some (Task.node
        { (Task.node (sampleData "p" .PENDING) [leafP "c"]).data with expanded := true }
        ((Task.node (sampleData "p" .PENDING) [leafP "c"]).subtasks ++ [leafP "n"])) :=
  ⟨⟨by decide, rfl⟩,
   c6_addTask_amended.2.2.2.2 _ "p" (leafP "n") _ (by decide) rfl⟩

/-! ### Id multisets under removal and insertion (C10) -/

theorem idsOfM_nil : ((idsOf [] : List String) : Multiset String) = 0 := by
  simp

theorem idsOfM_cons (t : Task) (ts : List Task) :
    ((idsOf (t :: ts) : List String) : Multiset String) =
      {t.id} + (idsOf t.subtasks : List String) + (idsOf ts : List String) := by
  rw [idsOf_cons]
  simp [Multiset.coe_add]

theorem idsOfM_append (l₁ l₂ : List Task) :
    ((idsOf (l₁ ++ l₂) : List String) : Multiset String) =
      (idsOf l₁ : List String) + (idsOf l₂ : List String) := by
  rw [idsOf_append]
  simp [Multiset.coe_add]

theorem extractHere_ids :
    ∀ {ts : List Task} {did : String} {d : Task} {ts' : List Task},
      extractHere ts did = some (d, ts') →
      ((idsOf ts : List String) : Multiset String) =
        {d.id} + (idsOf d.subtasks : List String) + (idsOf ts' : List String)
  | [], did, d, ts', h => by simp [extractHere] at h
  | t :: ts, did, d, ts', h => by
    rw [extractHere] at h
    split at h
    next heq =>
      cases h
      simp [idsOfM_cons]
    next heq =>
      split at h
      next d₂ ts₂ hex =>
        cases h
        have ih := extractHere_ids hex
        simp only [idsOfM_cons, ih]
        abel
      next hex => cases h

mutual
theorem removeDeep_ids :
    ∀ {ts : List Task} {did : String} {dr : Task} {ts' : List Task},
      removeDeep ts did = some (dr, ts') →
      ((idsOf ts : List String) : Multiset String) =
        {dr.id} + (idsOf dr.subtasks : List String) + (idsOf ts' : List String)
  | [], did, dr, ts', h => by simp [removeDeep] at h
  | t :: ts, did, dr, ts', h => by
    rw [removeDeep] at h
    split at h
    next dr₂ t₂ hnode =>
      cases h
      obtain ⟨subs', rfl, hids⟩ := removeNode_ids hnode
      simp only [idsOfM_cons, hids, Task.id_node, Task.subtasks_node, Task.id,
        Task.data_node]
      abel
    next hnode =>
      split at h
      next dr₂ ts₂ hdeep =>
        cases h
        have ih := removeDeep_ids hdeep
        simp only [idsOfM_cons, ih]
        abel
      next hdeep => cases h

theorem removeNode_ids :
    ∀ {t : Task} {did : String} {dr : Task} {t' : Task},
      removeNode t did = some (dr, t') →
      ∃ subs', t' = Task.node t.data subs' ∧
        ((idsOf t.subtasks : List String) : Multiset String) =
          {dr.id} + (idsOf dr.subtasks : List String) + (idsOf subs' : List String)
  | .node d subs, did, dr, t', h => by
    rw [removeNode] at h
    split at h
    next dr₂ subs₂ hex =>
      cases h
      exact ⟨subs₂, rfl, extractHere_ids hex⟩
    next hex =>
      split at h
      next dr₂ subs₂ hdeep =>
        cases h
        exact ⟨subs₂, rfl, removeDeep_ids hdeep⟩
      next hdeep => cases h
end

theorem removeTask_ids {ts : List Task} {did : String} {dr : Task}
    {ts' : List Task} (h : removeTask ts did = some (dr, ts')) :
    ((idsOf ts : List String) : Multiset String) =
      {dr.id} + (idsOf dr.subtasks : List String) + (idsOf ts' : List String) := by
  rw [removeTask] at h
  split at h
  next dr₂ ts₂ hex =>
    cases h
    exact extractHere_ids hex
  next hex => exact removeDeep_ids h

theorem insertHere_ids :
    ∀ {ts : List Task} {tid : String} {pos : Pos} {d : Task} {ts' : List Task},
      insertHere ts tid pos d = some ts' →
      ((idsOf ts' : List String) : Multiset String) =
        {d.id} + (idsOf d.subtasks : List String) + (idsOf ts : List String)
  | [], tid, pos, d, ts', h => by simp [insertHere] at h
  | t :: ts, tid, pos, d, ts', h => by
    simp only [insertHere] at h
    split at h
    next heq =>
      cases h
      cases pos <;>
        (simp only [idsOfM_cons, idsOfM_append, idsOfM_nil, Task.id_node,
          Task.subtasks_node, Task.data_node, Task.id]
         try abel)
    next heq =>
      split at h
      next ts₂ hins =>
        cases h
        have ih := insertHere_ids hins
        simp only [idsOfM_cons, ih]
        abel
      next hins => cases h

mutual
theorem insertDeep_ids :
    ∀ {ts : List Task} {tid : String} {pos : Pos} {d : Task} {ts' : List Task},
      insertDeep ts tid pos d = some ts' →
      ((idsOf ts' : List String) : Multiset String) =
        {d.id} + (idsOf d.subtasks : List String) + (idsOf ts : List String)
  | [], tid, pos, d, ts', h => by simp [insertDeep] at h
  | t :: ts, tid, pos, d, ts', h => by
    rw [insertDeep] at h
    split at h
    next t₂ hnode =>
      cases h
      obtain ⟨subs', rfl, hids⟩ := insertNode_ids hnode
      simp only [idsOfM_cons, hids, Task.id_node, Task.subtasks_node, Task.id,
        Task.data_node]
      abel
    next hnode =>
      split at h
      next ts₂ hdeep =>
        cases h
        have ih := insertDeep_ids hdeep
        simp only [idsOfM_cons, ih]
        abel
      next hdeep => cases h

theorem insertNode_ids :
    ∀ {t : Task} {tid : String} {pos : Pos} {d : Task} {t' : Task},
      insertNode t tid pos d = some t' →
      ∃ subs', t' = Task.node t.data subs' ∧
        ((idsOf subs' : List String) : Multiset String) =
          {d.id} + (idsOf d.subtasks : List String) + (idsOf t.subtasks : List String)
  | .node dd subs, tid, pos, d, t', h => by
    rw [insertNode] at h
    split at h
    next subs₂ hins =>
      cases h
      exact ⟨subs₂, rfl, insertHere_ids hins⟩
    next hins =>
      split at h
      next subs₂ hdeep =>
        cases h
        exact ⟨subs₂, rfl, insertDeep_ids hdeep⟩
      next hdeep => cases h
end

theorem insertTask_ids {ts : List Task} {tid : String} {pos : Pos} {d : Task}
    {ts' : List Task} (h : insertTask ts tid pos d = some ts') :
    ((idsOf ts' : List String) : Multiset String) =
      {d.id} + (idsOf d.subtasks : List String) + (idsOf ts : List String) := by
  rw [insertTask] at h
  split at h
  next ts₂ hins =>
    cases h
    exact insertHere_ids hins
  next hins => exact insertDeep_ids h

/-- C10: for arbitrary dragged id, target id and position — present or
absent, valid or cyclic — `moveTask`'s forest transformation preserves
the multiset of task ids over all nodes at all depths: the dragged
subtree is never lost and never duplicated. -/
theorem c10_move_preserves_ids (ts : List Task) (did tid : String) (pos : Pos) :
    ((idsOf (moveTaskForest ts did tid pos) : List String) : Multiset String) =
      (idsOf ts : List String) := by
  cases hrem : removeTask ts did with
  | none => simp only [moveTaskForest, hrem]
  | some r =>
    obtain ⟨d, ts'⟩ := r
    cases hins : insertTask ts' tid pos d with
    | none => simp only [moveTaskForest, hrem, hins]
    | some ts'' =>
      simp only [moveTaskForest, hrem, hins]
      rw [insertTask_ids hins, removeTask_ids hrem]

/-! ### Failure and success characterizations of removal/insertion (C2) -/

theorem extractHere_none :
    ∀ {ts : List Task} {did : String}, (∀ t ∈ ts, t.id ≠ did) →
      extractHere ts did = none
  | [], did, _ => by simp [extractHere]
  | t :: ts, did, h => by
    rw [extractHere, if_neg (h t (List.mem_cons_self _ _)),
      extractHere_none (fun u hu => h u (List.mem_cons_of_mem _ hu))]

mutual
theorem removeDeep_none :
    ∀ {ts : List Task} {did : String}, did ∉ idsOf ts → removeDeep ts did = none
  | [], did, _ => by simp [removeDeep]
  | t :: ts, did, h => by
    rw [idsOf_cons] at h
    simp only [List.mem_cons, List.mem_append] at h
    push_neg at h
    obtain ⟨h1, h2, h3⟩ := h
    rw [removeDeep, removeNode_none h2, removeDeep_none h3]

theorem removeNode_none :
    ∀ {t : Task} {did : String}, did ∉ idsOf t.subtasks → removeNode t did = none
  | .node d subs, did, h => by
    simp only [Task.subtasks_node] at h
    have hex : extractHere subs did = none := extractHere_none (fun u hu hid =>
      h (hid ▸ id_mem_idsOf (mem_allTasks_of_mem hu)))
    rw [removeNode, hex, removeDeep_none h]
end

theorem removeTask_none {ts : List Task} {did : String}
    (h : did ∉ idsOf ts) : removeTask ts did = none := by
  have hex : extractHere ts did = none := extractHere_none (fun u hu hid =>
    h (hid ▸ id_mem_idsOf (mem_allTasks_of_mem hu)))
  rw [removeTask, hex, removeDeep_none h]

theorem insertHere_none :
    ∀ {ts : List Task} {tid : String} {pos : Pos} {d : Task},
      (∀ t ∈ ts, t.id ≠ tid) → insertHere ts tid pos d = none
  | [], tid, pos, d, _ => by simp [insertHere]
  | t :: ts, tid, pos, d, h => by
    simp only [insertHere]
    rw [if_neg (h t (List.mem_cons_self _ _)),
      insertHere_none (fun u hu => h u (List.mem_cons_of_mem _ hu))]

mutual
theorem insertDeep_none :
    ∀ {ts : List Task} {tid : String} {pos : Pos} {d : Task},
      tid ∉ idsOf ts → insertDeep ts tid pos d = none
  | [], tid, pos, d, _ => by simp [insertDeep]
  | t :: ts, tid, pos, d, h => by
    rw [idsOf_cons] at h
    simp only [List.mem_cons, List.mem_append] at h
    push_neg at h
    obtain ⟨h1, h2, h3⟩ := h
    rw [insertDeep, insertNode_none h2, insertDeep_none h3]

theorem insertNode_none :
    ∀ {t : Task} {tid : String} {pos : Pos} {d : Task},
      tid ∉ idsOf t.subtasks → insertNode t tid pos d = none
  | .node dd subs, tid, pos, d, h => by
    simp only [Task.subtasks_node] at h
    have hex : insertHere subs tid pos d = none := insertHere_none (fun u hu hid =>
      h (hid ▸ id_mem_idsOf (mem_allTasks_of_mem hu)))
    rw [insertNode, hex, insertDeep_none h]
end

theorem insertTask_none {ts : List Task} {tid : String} {pos : Pos} {d : Task}
    (h : tid ∉ idsOf ts) : insertTask ts tid pos d = none := by
  have hex : insertHere ts tid pos d = none := insertHere_none (fun u hu hid =>
    h (hid ▸ id_mem_idsOf (mem_allTasks_of_mem hu)))
  rw [insertTask, hex, insertDeep_none h]

theorem extractHere_found :
    ∀ {ts : List Task} {did : String} {d : Task} {ts' : List Task},
      extractHere ts did = some (d, ts') → d.id = did ∧ d ∈ ts
  | [], did, d, ts', h => by simp [extractHere] at h
  | t :: ts, did, d, ts', h => by
    rw [extractHere] at h
    split at h
    next heq =>
      cases h
      exact ⟨heq, List.mem_cons_self _ _⟩
    next heq =>
      split at h
      next d₂ ts₂ hex =>
        cases h
        obtain ⟨h1, h2⟩ := extractHere_found hex
        exact ⟨h1, List.mem_cons_of_mem _ h2⟩
      next hex => cases h

mutual
theorem removeDeep_found :
    ∀ {ts : List Task} {did : String} {dr : Task} {ts' : List Task},
      removeDeep ts did = some (dr, ts') → dr.id = did ∧ dr ∈ allTasks ts
  | [], did, dr, ts', h => by simp [removeDeep] at h
  | t :: ts, did, dr, ts', h => by
    rw [removeDeep] at h
    split at h
    next dr₂ t₂ hnode =>
      cases h
      obtain ⟨h1, h2⟩ := removeNode_found hnode
      refine ⟨h1, ?_⟩
      rw [allTasks_cons]
      exact List.mem_cons_of_mem _ (List.mem_append_left _ h2)
    next hnode =>
      split at h
      next dr₂ ts₂ hdeep =>
        cases h
        obtain ⟨h1, h2⟩ := removeDeep_found hdeep
        refine ⟨h1, ?_⟩
        rw [allTasks_cons]
        exact List.mem_cons_of_mem _ (List.mem_append_right _ h2)
      next hdeep => cases h

theorem removeNode_found :
    ∀ {t : Task} {did : String} {dr : Task} {t' : Task},
      removeNode t did = some (dr, t') → dr.id = did ∧ dr ∈ allTasks t.subtasks
  | .node d subs, did, dr, t', h => by
    rw [removeNode] at h
    split at h
    next dr₂ subs₂ hex =>
      cases h
      obtain ⟨h1, h2⟩ := extractHere_found hex
      exact ⟨h1, by simpa using mem_allTasks_of_mem h2⟩
    next hex =>
      split at h
      next dr₂ subs₂ hdeep =>
        cases h
        obtain ⟨h1, h2⟩ := removeDeep_found hdeep
        exact ⟨h1, by simpa using h2⟩
      next hdeep => cases h
end

theorem removeTask_found {ts : List Task} {did : String} {dr : Task}
    {ts' : List Task} (h : removeTask ts did = some (dr, ts')) :
    dr.id = did ∧ dr ∈ allTasks ts := by
  rw [removeTask] at h
  split at h
  next dr₂ ts₂ hex =>
    cases h
    obtain ⟨h1, h2⟩ := extractHere_found hex
    exact ⟨h1, mem_allTasks_of_mem h2⟩
  next hex => exact removeDeep_found h

theorem removeTask_perm {ts : List Task} {did : String} {dr : Task}
    {ts' : List Task} (h : removeTask ts did = some (dr, ts')) :
    List.Perm (idsOf ts) ((dr.id :: idsOf dr.subtasks) ++ idsOf ts') := by
  rw [← Multiset.coe_eq_coe, removeTask_ids h]
  simp only [← Multiset.cons_coe, ← Multiset.coe_add]
  simp [Multiset.singleton_add]

/-- C2: `moveTask`'s forest transformation is all-or-nothing and
rejects invalid moves — an absent dragged id, self-relocation, a target
inside the dragged subtree (all under the data model's globally unique
ids), and a target that cannot be found once the dragged subtree has
been removed all leave the forest unchanged. -/
theorem c2_move_rejections (ts : List Task) (did tid : String) (pos : Pos) :
    (did ∉ idsOf ts → moveTaskForest ts did tid pos = ts) ∧
    ((idsOf ts).Nodup → moveTaskForest ts tid tid pos = ts) ∧
    ((idsOf ts).Nodup → ∀ d, findTask ts did = some d → tid ∈ idsOf [d] →
      moveTaskForest ts did tid pos = ts) ∧
    (∀ d ts₁, removeTask ts did = some (d, ts₁) → tid ∉ idsOf ts₁ →
      moveTaskForest ts did tid pos = ts) := by
  have rollback : ∀ (did₂ : String) (d : Task) (ts₁ : List Task),
      removeTask ts did₂ = some (d, ts₁) → tid ∉ idsOf ts₁ →
      moveTaskForest ts did₂ tid pos = ts := by
    intro did₂ d ts₁ hrem hnot
    simp only [moveTaskForest, hrem, insertTask_none hnot]
  refine ⟨?_, ?_, ?_, fun d ts₁ h1 h2 => rollback did d ts₁ h1 h2⟩
  · intro h
    simp only [moveTaskForest, removeTask_none h]
  · intro hnd
    cases hrem : removeTask ts tid with
    | none => simp only [moveTaskForest, hrem]
    | some r =>
      obtain ⟨d, ts₁⟩ := r
      have hid := (removeTask_found hrem).1
      have hnd2 := (removeTask_perm hrem).nodup hnd
      rw [List.nodup_append] at hnd2
      refine rollback tid d ts₁ hrem (fun hmem => ?_)
      exact hnd2.2.2 (hid ▸ List.mem_cons_self d.id (idsOf d.subtasks)) hmem
  · intro hnd d hf htid
    cases hrem : removeTask ts did with
    | none => simp only [moveTaskForest, hrem]
    | some r =>
      obtain ⟨d₂, ts₁⟩ := r
      obtain ⟨hi2, hm2⟩ := removeTask_found hrem
      obtain ⟨hm, hi⟩ := findTask_mem hf
      have heq : d₂ = d := node_unique hnd hm2 hm (by rw [hi2, hi])
      subst heq
      have hnd2 := (removeTask_perm hrem).nodup hnd
      rw [List.nodup_append] at hnd2
      refine rollback did d₂ ts₁ hrem (fun hmem => ?_)
      rw [idsOf_singleton] at htid
      exact hnd2.2.2 htid hmem

/-- Witness for C2: concrete instances of all four rejection cases —
absent dragged id, self-relocation, relocation into the dragged node's
own subtree, and rollback when the target is gone after removal. -/
theorem c2_move_witness :
    (("zz" ∉ idsOf [leafP "a", leafC "b"]) ∧
      moveTaskForest [leafP "a", leafC "b"] "zz" "a" .before = [leafP "a", leafC "b"]) ∧
    ((idsOf [leafP "a", leafC "b"]).Nodup ∧
      moveTaskForest [leafP "a", leafC "b"] "a" "a" .inside = [leafP "a", leafC "b"]) ∧
    ((idsOf [Task.node (sampleData "p" .PENDING) [leafP "c"], leafC "b"]).Nodup ∧
      findTask [Task.node (sampleData "p" .PENDING) [leafP "c"], leafC "b"] "p" =
        some (Task.node (sampleData "p" .PENDING) [leafP "c"]) ∧
      "c" ∈ idsOf [Task.node (sampleData "p" .PENDING) [leafP "c"]] ∧
      moveTaskForest [Task.node (sampleData "p" .PENDING) [leafP "c"], leafC "b"]
        "p" "c" .inside =
        [Task.node (sampleData "p" .PENDING) [leafP "c"], leafC "b"]) ∧
    (removeTask [leafP "a", leafC "b"] "a" = some (leafP "a", [leafC "b"]) ∧
      "zz" ∉ idsOf [leafC "b"] ∧
      moveTaskForest [leafP "a", leafC "b"] "a" "zz" .after = [leafP "a", leafC "b"]) :=
  ⟨⟨by decide, (c2_move_rejections [leafP "a", leafC "b"] "zz" "a" .before).1 (by decide)⟩,
   ⟨by decide, (c2_move_rejections [leafP "a", leafC "b"] "x" "a" .inside).2.1 (by decide)⟩,
   ⟨by decide, rfl, by decide,
    (c2_move_rejections [Task.node (sampleData "p" .PENDING) [leafP "c"], leafC "b"]
      "p" "c" .inside).2.2.1 (by decide) _ rfl (by decide)⟩,
   ⟨rfl, by decide,
    (c2_move_rejections [leafP "a", leafC "b"] "a" "zz" .after).2.2.2 _ _ rfl (by decide)⟩⟩

/-! ### Sibling-context lemmas (C3, C8) -/

theorem SibUpd.ids_decomp :
    ∀ {ts ts' L L' : List Task}, SibUpd ts ts' L L' →
      ∃ X Y, idsOf ts = X ++ (idsOf L ++ Y) ∧ idsOf ts' = X ++ (idsOf L' ++ Y) := by
  intro ts ts' L L' h
  induction h with
  | top L L' => exact ⟨[], [], by simp, by simp⟩
  | skip t h ih =>
    obtain ⟨X, Y, h1, h2⟩ := ih
    refine ⟨t.id :: (idsOf t.subtasks ++ X), Y, ?_, ?_⟩
    · rw [idsOf_cons, h1]
      simp [List.append_assoc]
    · rw [idsOf_cons, h2]
      simp [List.append_assoc]
  | down d ts h ih =>
    obtain ⟨X, Y, h1, h2⟩ := ih
    refine ⟨d.id :: X, Y ++ idsOf ts, ?_, ?_⟩
    · rw [idsOf_cons]
      simp only [Task.id_node, Task.subtasks_node]
      rw [h1]
      simp [List.append_assoc]
    · rw [idsOf_cons]
      simp only [Task.id_node, Task.subtasks_node]
      rw [h2]
      simp [List.append_assoc]

theorem SibUpd.eq_of_eq :
    ∀ {ts ts' L L' : List Task}, SibUpd ts ts' L L' → L' = L → ts' = ts := by
  intro ts ts' L L' h
  induction h with
  | top L L' => exact fun he => he
  | skip t h ih => exact fun he => by rw [ih he]
  | down d ts h ih => exact fun he => by rw [ih he]

theorem SibUpd.comp :
    ∀ {ts u L L' : List Task}, SibUpd ts u L L' → ∀ L'' : List Task,
      ∃ v, SibUpd u v L' L'' ∧ SibUpd ts v L L'' := by
  intro ts u L L' h
  induction h with
  | top L L' => exact fun L'' => ⟨L'', .top L' L'', .top L L''⟩
  | skip t h ih =>
    intro L''
    obtain ⟨v, h1, h2⟩ := ih L''
    exact ⟨t :: v, .skip t h1, .skip t h2⟩
  | down d ts h ih =>
    intro L''
    obtain ⟨v, h1, h2⟩ := ih L''
    exact ⟨.node d v :: ts, .down d ts h1, .down d ts h2⟩

theorem SibUpd.nodup_of_sublist {ts ts' L L' : List Task}
    (h : SibUpd ts ts' L L') (hsub : (idsOf L').Sublist (idsOf L))
    (hnd : (idsOf ts).Nodup) : (idsOf ts').Nodup := by
  obtain ⟨X, Y, h1, h2⟩ := h.ids_decomp
  rw [h2]
  rw [h1] at hnd
  exact ((List.Sublist.refl X).append
    (hsub.append (List.Sublist.refl Y))).nodup hnd

theorem SibUpd.nodup_of_perm {ts ts' L L' : List Task}
    (h : SibUpd ts ts' L L') (hp : List.Perm (idsOf L) (idsOf L'))
    (hnd : (idsOf ts).Nodup) : (idsOf ts').Nodup := by
  obtain ⟨X, Y, h1, h2⟩ := h.ids_decomp
  rw [h2]
  rw [h1] at hnd
  exact (((hp.append_right Y).append_left X)).nodup hnd

theorem mem_L_id {pre post : List Task} (a : Task) :
    a.id ∈ idsOf (pre ++ a :: post) :=
  id_mem_idsOf (mem_allTasks_of_mem (by simp))

/-! Equation helpers for the two-phase removal and insertion. -/

theorem extractHere_cons_none {t : Task} {ts : List Task} {i : String}
    (hid : ¬ t.id = i) (hex : extractHere ts i = none) :
    extractHere (t :: ts) i = none := by
  rw [extractHere, if_neg hid, hex]

theorem extractHere_cons_some {t : Task} {ts ts' : List Task} {i : String}
    {d : Task} (hid : ¬ t.id = i) (hex : extractHere ts i = some (d, ts')) :
    extractHere (t :: ts) i = some (d, t :: ts') := by
  rw [extractHere, if_neg hid, hex]

theorem removeTask_eq_here {ts : List Task} {i : String}
    {r : Task × List Task} (hex : extractHere ts i = some r) :
    removeTask ts i = some r := by
  rw [removeTask, hex]

theorem removeTask_eq_deep {ts : List Task} {i : String}
    (hex : extractHere ts i = none) : removeTask ts i = removeDeep ts i := by
  rw [removeTask, hex]

theorem removeDeep_cons_found {t t' : Task} {ts : List Task} {i : String}
    {d : Task} (hn : removeNode t i = some (d, t')) :
    removeDeep (t :: ts) i = some (d, t' :: ts) := by
  rw [removeDeep, hn]

theorem removeDeep_cons_rest {t : Task} {ts ts' : List Task} {i : String}
    {d : Task} (hn : removeNode t i = none)
    (hd : removeDeep ts i = some (d, ts')) :
    removeDeep (t :: ts) i = some (d, t :: ts') := by
  rw [removeDeep, hn, hd]

theorem removeNode_eq_here {dd : TaskData} {subs subs' : List Task}
    {i : String} {d : Task} (hex : extractHere subs i = some (d, subs')) :
    removeNode (.node dd subs) i = some (d, .node dd subs') := by
  rw [removeNode, hex]

theorem removeNode_eq_deep {dd : TaskData} {subs subs' : List Task}
    {i : String} {d : Task} (hex : extractHere subs i = none)
    (hdeep : removeDeep subs i = some (d, subs')) :
    removeNode (.node dd subs) i = some (d, .node dd subs') := by
  rw [removeNode, hex, hdeep]

theorem extractHere_append (pre post : List Task) (a : Task)
    (hpre : ∀ p ∈ pre, p.id ≠ a.id) :
    extractHere (pre ++ a :: post) a.id = some (a, pre ++ post) := by
  induction pre with
  | nil => simp [extractHere]
  | cons p ps ih =>
    rw [List.cons_append, List.cons_append]
    exact extractHere_cons_some (hpre p (List.mem_cons_self _ _))
      (ih (fun u hu => hpre u (List.mem_cons_of_mem _ hu)))

theorem removeTask_cons_step {t : Task} {ts ts₁ : List Task} {i : String}
    {d : Task} (hid : ¬ t.id = i) (hsubs : i ∉ idsOf t.subtasks)
    (h : removeTask ts i = some (d, ts₁)) :
    removeTask (t :: ts) i = some (d, t :: ts₁) := by
  rw [removeTask] at h
  cases hex : extractHere ts i with
  | some r =>
    rw [hex] at h
    have h' : some r = some (d, ts₁) := h
    obtain ⟨d₂, ts₂⟩ := r
    cases h'
    exact removeTask_eq_here (extractHere_cons_some hid hex)
  | none =>
    rw [hex] at h
    have hdeep : removeDeep ts i = some (d, ts₁) := h
    rw [removeTask_eq_deep (extractHere_cons_none hid hex)]
    exact removeDeep_cons_rest (removeNode_none hsubs) hdeep

theorem removeTask_down_step {dd : TaskData} {subs subs' ts : List Task}
    {i : String} {d : Task} (hid : ¬ dd.id = i) (hts : i ∉ idsOf ts)
    (h : removeTask subs i = some (d, subs')) :
    removeTask (.node dd subs :: ts) i = some (d, .node dd subs' :: ts) := by
  have hexts : extractHere ts i = none := extractHere_none (fun u hu hid2 =>
    hts (hid2 ▸ id_mem_idsOf (mem_allTasks_of_mem hu)))
  rw [removeTask_eq_deep (extractHere_cons_none (by simpa using hid) hexts)]
  rw [removeTask] at h
  cases hexs : extractHere subs i with
  | some r =>
    rw [hexs] at h
    have h' : some r = some (d, subs') := h
    obtain ⟨d₂, s₂⟩ := r
    cases h'
    exact removeDeep_cons_found (removeNode_eq_here hexs)
  | none =>
    rw [hexs] at h
    have hdeep : removeDeep subs i = some (d, subs') := h
    exact removeDeep_cons_found (removeNode_eq_deep hexs hdeep)

theorem removeTask_of_sibupd_aux :
    ∀ {ts ts₁ L L' pre post : List Task} {a : Task},
      SibUpd ts ts₁ L L' → L = pre ++ a :: post → L' = pre ++ post →
      (idsOf ts).Nodup → removeTask ts a.id = some (a, ts₁) := by
  intro ts ts₁ L L' pre post a h
  induction h with
  | top L L' =>
    intro hL hL' hnd
    subst hL
    subst hL'
    have htop : ((pre ++ a :: post).map Task.id).Nodup :=
      (topIds_sublist _).nodup hnd
    rw [List.map_append, List.map_cons, List.nodup_append] at htop
    have hpre : ∀ p ∈ pre, p.id ≠ a.id := by
      intro p hp heq
      exact htop.2.2 (List.mem_map_of_mem Task.id hp)
        (heq ▸ List.mem_cons_self _ _)
    exact removeTask_eq_here (extractHere_append pre post a hpre)
  | skip t h ih =>
    rename_i ts₀ ts₀' _ _
    intro hL hL' hnd
    subst hL
    subst hL'
    rw [idsOf_cons, List.nodup_cons, List.nodup_append] at hnd
    obtain ⟨htid, hndsub, hndts, hdisj⟩ := hnd
    simp only [List.mem_append] at htid
    push_neg at htid
    have ha_in : a.id ∈ idsOf ts₀ := by
      obtain ⟨X, Y, h1, _⟩ := h.ids_decomp
      rw [h1]
      simp [mem_L_id a]
    refine removeTask_cons_step (fun he => htid.2 (he ▸ ha_in)) ?_
      (ih rfl rfl hndts)
    intro hmem
    exact hdisj hmem ha_in
  | down dd ts₂ h ih =>
    rename_i subs subs' _ _
    intro hL hL' hnd
    subst hL
    subst hL'
    obtain ⟨hd1, hd2, hndsub, hndts, hdisj⟩ := nodup_cons_parts hnd
    have ha_in : a.id ∈ idsOf subs := by
      obtain ⟨X, Y, h1, _⟩ := h.ids_decomp
      rw [h1]
      simp [mem_L_id a]
    refine removeTask_down_step (fun he => hd1 (he ▸ ha_in)) ?_
      (ih rfl rfl hndsub)
    intro hmem
    exact hdisj ha_in hmem

theorem removeTask_of_sibupd {ts ts₁ pre post : List Task} {a : Task}
    (h : SibUpd ts ts₁ (pre ++ a :: post) (pre ++ post))
    (hnd : (idsOf ts).Nodup) : removeTask ts a.id = some (a, ts₁) :=
  removeTask_of_sibupd_aux h rfl rfl hnd

theorem insertHere_cons_none {t : Task} {ts : List Task} {i : String}
    {pos : Pos} {d : Task} (hid : ¬ t.id = i)
    (hins : insertHere ts i pos d = none) :
    insertHere (t :: ts) i pos d = none := by
  simp only [insertHere]
  rw [if_neg hid, hins]

theorem insertHere_cons_some {t : Task} {ts ts' : List Task} {i : String}
    {pos : Pos} {d : Task} (hid : ¬ t.id = i)
    (hins : insertHere ts i pos d = some ts') :
    insertHere (t :: ts) i pos d = some (t :: ts') := by
  simp only [insertHere]
  rw [if_neg hid, hins]

theorem insertTask_eq_here {ts : List Task} {i : String} {pos : Pos}
    {d : Task} {r : List Task} (hins : insertHere ts i pos d = some r) :
    insertTask ts i pos d = some r := by
  rw [insertTask, hins]

theorem insertTask_eq_deep {ts : List Task} {i : String} {pos : Pos}
    {d : Task} (hins : insertHere ts i pos d = none) :
    insertTask ts i pos d = insertDeep ts i pos d := by
  rw [insertTask, hins]

theorem insertDeep_cons_found {t t' : Task} {ts : List Task} {i : String}
    {pos : Pos} {d : Task} (hn : insertNode t i pos d = some t') :
    insertDeep (t :: ts) i pos d = some (t' :: ts) := by
  rw [insertDeep, hn]

theorem insertDeep_cons_rest {t : Task} {ts ts' : List Task} {i : String}
    {pos : Pos} {d : Task} (hn : insertNode t i pos d = none)
    (hd : insertDeep ts i pos d = some ts') :
    insertDeep (t :: ts) i pos d = some (t :: ts') := by
  rw [insertDeep, hn, hd]

theorem insertNode_eq_here {dd : TaskData} {subs subs' : List Task}
    {i : String} {pos : Pos} {d : Task}
    (hins : insertHere subs i pos d = some subs') :
    insertNode (.node dd subs) i pos d = some (.node dd subs') := by
  rw [insertNode, hins]

theorem insertNode_eq_deep {dd : TaskData} {subs subs' : List Task}
    {i : String} {pos : Pos} {d : Task}
    (hins : insertHere subs i pos d = none)
    (hdeep : insertDeep subs i pos d = some subs') :
    insertNode (.node dd subs) i pos d = some (.node dd subs') := by
  rw [insertNode, hins, hdeep]

theorem insShape_cons (pos : Pos) (tgt d p : Task) (ps post : List Task) :
    insShape pos tgt d (p :: ps) post = p :: insShape pos tgt d ps post := by
  cases pos <;> rfl

theorem insertHere_append (pre post : List Task) (tgt d : Task) (pos : Pos)
    (hpre : ∀ p ∈ pre, p.id ≠ tgt.id) :
    insertHere (pre ++ tgt :: post) tgt.id pos d =
      some (insShape pos tgt d pre post) := by
  induction pre with
  | nil =>
    cases pos <;> simp [insertHere, insShape]
  | cons p ps ih =>
    rw [List.cons_append, insShape_cons]
    exact insertHere_cons_some (hpre p (List.mem_cons_self _ _))
      (ih (fun u hu => hpre u (List.mem_cons_of_mem _ hu)))

theorem insertTask_cons_step {t : Task} {ts ts₁ : List Task} {i : String}
    {pos : Pos} {d : Task} (hid : ¬ t.id = i) (hsubs : i ∉ idsOf t.subtasks)
    (h : insertTask ts i pos d = some ts₁) :
    insertTask (t :: ts) i pos d = some (t :: ts₁) := by
  rw [insertTask] at h
  cases hex : insertHere ts i pos d with
  | some r =>
    rw [hex] at h
    have h' : some r = some ts₁ := h
    cases h'
    exact insertTask_eq_here (insertHere_cons_some hid hex)
  | none =>
    rw [hex] at h
    have hdeep : insertDeep ts i pos d = some ts₁ := h
    rw [insertTask_eq_deep (insertHere_cons_none hid hex)]
    exact insertDeep_cons_rest (insertNode_none hsubs) hdeep

theorem insertTask_down_step {dd : TaskData} {subs subs' ts : List Task}
    {i : String} {pos : Pos} {d : Task} (hid : ¬ dd.id = i)
    (hts : i ∉ idsOf ts) (h : insertTask subs i pos d = some subs') :
    insertTask (.node dd subs :: ts) i pos d =
      some (.node dd subs' :: ts) := by
  have hexts : insertHere ts i pos d = none := insertHere_none (fun u hu hid2 =>
    hts (hid2 ▸ id_mem_idsOf (mem_allTasks_of_mem hu)))
  rw [insertTask_eq_deep (insertHere_cons_none (by simpa using hid) hexts)]
  rw [insertTask] at h
  cases hexs : insertHere subs i pos d with
  | some r =>
    rw [hexs] at h
    have h' : some r = some subs' := h
    cases h'
    exact insertDeep_cons_found (insertNode_eq_here hexs)
  | none =>
    rw [hexs] at h
    have hdeep : insertDeep subs i pos d = some subs' := h
    exact insertDeep_cons_found (insertNode_eq_deep hexs hdeep)

theorem insertTask_of_sibupd_aux :
    ∀ {ts ts₂ L L' pre post : List Task} {tgt d : Task} {pos : Pos},
      SibUpd ts ts₂ L L' → L = pre ++ tgt :: post →
      L' = insShape pos tgt d pre post →
      (idsOf ts).Nodup → insertTask ts tgt.id pos d = some ts₂ := by
  intro ts ts₂ L L' pre post tgt d pos h
  induction h with
  | top L L' =>
    intro hL hL' hnd
    subst hL
    subst hL'
    have htop : ((pre ++ tgt :: post).map Task.id).Nodup :=
      (topIds_sublist _).nodup hnd
    rw [List.map_append, List.map_cons, List.nodup_append] at htop
    have hpre : ∀ p ∈ pre, p.id ≠ tgt.id := by
      intro p hp heq
      exact htop.2.2 (List.mem_map_of_mem Task.id hp)
        (heq ▸ List.mem_cons_self _ _)
    exact insertTask_eq_here (insertHere_append pre post tgt d pos hpre)
  | skip t h ih =>
    rename_i ts₀ ts₀' _ _
    intro hL hL' hnd
    subst hL
    subst hL'
    rw [idsOf_cons, List.nodup_cons, List.nodup_append] at hnd
    obtain ⟨htid, hndsub, hndts, hdisj⟩ := hnd
    simp only [List.mem_append] at htid
    push_neg at htid
    have ha_in : tgt.id ∈ idsOf ts₀ := by
      obtain ⟨X, Y, h1, _⟩ := h.ids_decomp
      rw [h1]
      simp [mem_L_id tgt]
    refine insertTask_cons_step (fun he => htid.2 (he ▸ ha_in)) ?_
      (ih rfl rfl hndts)
    intro hmem
    exact hdisj hmem ha_in
  | down dd ts₂' h ih =>
    rename_i subs subs' _ _
    intro hL hL' hnd
    subst hL
    subst hL'
    obtain ⟨hd1, hd2, hndsub, hndts, hdisj⟩ := nodup_cons_parts hnd
    have ha_in : tgt.id ∈ idsOf subs := by
      obtain ⟨X, Y, h1, _⟩ := h.ids_decomp
      rw [h1]
      simp [mem_L_id tgt]
    refine insertTask_down_step (fun he => hd1 (he ▸ ha_in)) ?_
      (ih rfl rfl hndsub)
    intro hmem
    exact hdisj ha_in hmem

theorem insertTask_of_sibupd {ts ts₂ pre post : List Task} {tgt d : Task}
    {pos : Pos}
    (h : SibUpd ts ts₂ (pre ++ tgt :: post) (insShape pos tgt d pre post))
    (hnd : (idsOf ts).Nodup) : insertTask ts tgt.id pos d = some ts₂ :=
  insertTask_of_sibupd_aux h rfl rfl hnd

theorem idsOf_remove_sublist (pre post : List Task) (x : Task) :
    (idsOf (pre ++ post)).Sublist (idsOf (pre ++ x :: post)) := by
  rw [idsOf_append, idsOf_append, idsOf_cons]
  exact List.Sublist.append_left ((List.sublist_append_right _ _).cons _) _

theorem idsOf_swap_perm (pre post : List Task) (a b : Task) :
    List.Perm (idsOf (pre ++ a :: b :: post)) (idsOf (pre ++ b :: a :: post)) := by
  apply Multiset.coe_eq_coe.mp
  simp only [idsOfM_append, idsOfM_cons]
  abel

/-- C3: a successful relocation is exactly a removal of the dragged
node (with its whole subtree, and unaltered) followed by a re-insertion
at the target's sibling list: immediately before or after the target
for `before`/`after`, or as last child of the target with
`expanded = true` forced for `inside` — the `insShape` equations record
the three produced sibling lists. -/
theorem c3_move_success (ts ts₁ ts₂ : List Task) (did tid : String)
    (pos : Pos) (d tgt : Task) (preD postD pre post : List Task)
    (hnd : (idsOf ts).Nodup) (hdid : d.id = did) (htid : tgt.id = tid)
    (hrem : SibUpd ts ts₁ (preD ++ d :: postD) (preD ++ postD))
    (hins : SibUpd ts₁ ts₂ (pre ++ tgt :: post) (insShape pos tgt d pre post)) :
    moveTaskForest ts did tid pos = ts₂ ∧
    insShape .before tgt d pre post = pre ++ d :: tgt :: post ∧
    insShape .after tgt d pre post = pre ++ tgt :: d :: post ∧
    insShape .inside tgt d pre post =
      pre ++ Task.node { tgt.data with expanded := true }
        (tgt.subtasks ++ [d]) :: post := by
  refine ⟨?_, rfl, rfl, rfl⟩
  subst hdid
  subst htid
  have h1 : removeTask ts d.id = some (d, ts₁) := removeTask_of_sibupd hrem hnd
  have hnd1 : (idsOf ts₁).Nodup :=
    hrem.nodup_of_sublist (idsOf_remove_sublist preD postD d) hnd
  have h2 : insertTask ts₁ tgt.id pos d = some ts₂ :=
    insertTask_of_sibupd hins hnd1
  simp only [moveTaskForest, h1, h2]

/-- Witness for C3: moving the leaf `a` after its sibling `b` in the
two-leaf forest `[a, b]` produces `[b, a]`. -/
theorem c3_move_witness :
    ((idsOf [leafP "a", leafC "b"]).Nodup ∧
      (leafP "a").id = "a" ∧ (leafC "b").id = "b" ∧
      SibUpd [leafP "a", leafC "b"] [leafC "b"]
        ([] ++ leafP "a" :: [leafC "b"]) ([] ++ [leafC "b"]) ∧
      SibUpd [leafC "b"] [leafC "b", leafP "a"]
        ([] ++ leafC "b" :: []) (insShape .after (leafC "b") (leafP "a") [] [])) ∧
    moveTaskForest [leafP "a", leafC "b"] "a" "b" .after =
      [leafC "b", leafP "a"] :=
  ⟨⟨by decide, rfl, rfl, SibUpd.top _ _, SibUpd.top _ _⟩,
   (c3_move_success [leafP "a", leafC "b"] [leafC "b"] [leafC "b", leafP "a"]
     "a" "b" .after (leafP "a") (leafC "b") [] [leafC "b"] [] []
     (by decide) rfl rfl (SibUpd.top _ _) (SibUpd.top _ _)).1⟩

/-- C8 (amended): for two adjacent sibling leaves, `a` immediately
before `b`, relocating `a` after `b` and then back before `b` restores
the original forest exactly. -/
theorem c8_roundtrip (ts pre post : List Task) (a b : Task)
    (hnd : (idsOf ts).Nodup) (hla : a.subtasks = []) (hlb : b.subtasks = [])
    (hocc : SibUpd ts ts (pre ++ a :: b :: post) (pre ++ a :: b :: post)) :
    moveTaskForest (moveTaskForest ts a.id b.id .after) a.id b.id .before = ts := by
  obtain ⟨ts₁, e₁, _⟩ := hocc.comp (pre ++ b :: post)
  have hrem₁ : removeTask ts a.id = some (a, ts₁) :=
    removeTask_of_sibupd e₁ hnd
  obtain ⟨ts₂, f₂, e₂⟩ := e₁.comp (pre ++ b :: a :: post)
  have hnd₁ : (idsOf ts₁).Nodup :=
    e₁.nodup_of_sublist (idsOf_remove_sublist pre (b :: post) a) hnd
  have f₂' : SibUpd ts₁ ts₂ (pre ++ b :: post)
      (insShape .after b a pre post) := f₂
  have hins₁ : insertTask ts₁ b.id .after a = some ts₂ :=
    insertTask_of_sibupd f₂' hnd₁
  have mv₁ : moveTaskForest ts a.id b.id .after = ts₂ := by
    simp only [moveTaskForest, hrem₁, hins₁]
  have hnd₂ : (idsOf ts₂).Nodup :=
    e₂.nodup_of_perm (idsOf_swap_perm pre post a b) hnd
  obtain ⟨ts₃, f₃, e₃⟩ := e₂.comp (pre ++ b :: post)
  have f₃' : SibUpd ts₂ ts₃ ((pre ++ [b]) ++ a :: post) ((pre ++ [b]) ++ post) := by
    have h1 : pre ++ b :: a :: post = (pre ++ [b]) ++ a :: post := by simp
    have h2 : pre ++ b :: post = (pre ++ [b]) ++ post := by simp
    rw [← h1, ← h2]
    exact f₃
  have hrem₂ : removeTask ts₂ a.id = some (a, ts₃) :=
    removeTask_of_sibupd f₃' hnd₂
  obtain ⟨ts₄, g₄, e₄⟩ := e₃.comp (pre ++ a :: b :: post)
  have hts₄ : ts₄ = ts := e₄.eq_of_eq rfl
  have hnd₃ : (idsOf ts₃).Nodup :=
    e₃.nodup_of_sublist (idsOf_remove_sublist pre (b :: post) a) hnd
  have g₄' : SibUpd ts₃ ts₄ (pre ++ b :: post)
      (insShape .before b a pre post) := g₄
  have hins₂ : insertTask ts₃ b.id .before a = some ts₄ :=
    insertTask_of_sibupd g₄' hnd₃
  have mv₂ : moveTaskForest ts₂ a.id b.id .before = ts₄ := by
    simp only [moveTaskForest, hrem₂, hins₂]
  rw [mv₁, mv₂, hts₄]

/-- Counterexample to C8 as stated: for the two sibling leaves `b`, `a`
(in that order) the after/before round trip yields `[a, b]`, not the
original `[b, a]` — the round trip always leaves `a` immediately before
`b`, which restores the original order only when `a` was already
immediately before `b`. -/
theorem c8_roundtrip_counterexample :
    ¬ (moveTaskForest (moveTaskForest [leafC "b", leafP "a"] "a" "b" .after)
        "a" "b" .before = [leafC "b", leafP "a"]) := by
  decide

/-- Witness for C8 (amended) on the two-leaf forest `[a, b]`. -/
theorem c8_roundtrip_witness :
    ((idsOf [leafP "a", leafC "b"]).Nodup ∧
      (leafP "a").subtasks = [] ∧ (leafC "b").subtasks = [] ∧
      SibUpd [leafP "a", leafC "b"] [leafP "a", leafC "b"]
        ([] ++ leafP "a" :: leafC "b" :: [])
        ([] ++ leafP "a" :: leafC "b" :: [])) ∧
    moveTaskForest (moveTaskForest [leafP "a", leafC "b"] "a" "b" .after)
      "a" "b" .before = [leafP "a", leafC "b"] :=
  ⟨⟨by decide, rfl, rfl, SibUpd.top _ _⟩,
   c8_roundtrip [leafP "a", leafC "b"] [] [] (leafP "a") (leafC "b")
     (by decide) rfl rfl (SibUpd.top _ _)⟩

end Proyectate
